import Mathlib

/-!
Verification of the two Markdown maintenance scripts of this repository:
`fix_multiple_blanks.py` (collapses runs of blank lines, exempting the file
`CHANGELOG.md`) and `fix_tables.py` (pads pipe-delimited table blocks with
blank lines).  File contents and paths are modelled as `List Char`; the
regular-expression operations of the scripts are rendered as recursive
scanners over the character list, following the scanning semantics of
CPython's `re` module and `str.replace`.

For every scanner defined by well-founded recursion there is a structurally
recursive, fuel-indexed twin (suffix `F`), proved equal to it; the twins make
concrete runs of the scripts kernel-computable.
-/

/- ## Blank-line normalizer: `fix_multiple_blanks.py` -/

/-- Rendering of `re.sub(r'\n{2,}', '\n\n', content)` from line 12 of
`fix_multiple_blanks.py`.  The substitution engine scans left to right: at a
position where the pattern matches, it greedily consumes the maximal run of
at least two newlines and emits exactly two newlines, resuming after the
run; at a position where the pattern fails (fewer than two newlines ahead)
the character is copied. -/
def subBlanks : List Char → List Char
  | [] => []
  | c :: cs =>
    if c = '\n' ∧ cs.head? = some '\n' then
      '\n' :: '\n' :: subBlanks (cs.dropWhile fun x => x = '\n')
    else
      c :: subBlanks cs
termination_by s => s.length
decreasing_by
  · have key : ∀ l : List Char, (l.dropWhile fun x => x = '\n').length ≤ l.length := by
      intro l
      induction l with
      | nil => simp
      | cons a as ih =>
        by_cases h : a = '\n'
        · simp only [List.dropWhile_cons, h]
          simp
          omega
        · simp [List.dropWhile_cons, h]
    have := key cs
    simp
    omega
  · simp

/-- Streaming twin of `subBlanks`: the state `k` counts how many newlines of
the current newline run have already been emitted; a run keeps its first two
newlines and the remaining ones are dropped. -/
def subBlanksRun : Nat → List Char → List Char
  | _, [] => []
  | k, c :: cs =>
    if c = '\n' then
      if 2 ≤ k then subBlanksRun k cs else '\n' :: subBlanksRun (k + 1) cs
    else
      c :: subBlanksRun 0 cs

/-- The literal `'CHANGELOG.md'` that line 11 of `fix_multiple_blanks.py`
compares the file path against. -/
def changelogName : List Char := "CHANGELOG.md".toList

/-- Content transform of `fix_multiple_blanks` (`fix_multiple_blanks.py`
lines 6-15): the blank-line substitution is applied unless the literal path
string passed to the function equals `'CHANGELOG.md'`; the (possibly
unchanged) content is then written back to the same path. -/
def fix_multiple_blanks (file_path : List Char) (content : List Char) : List Char :=
  if file_path ≠ changelogName then subBlanks content else content

/-- Whether the text contains three consecutive newline characters (the
shape the normalizer is meant to eliminate). -/
def hasTriple : List Char → Bool
  | a :: b :: c :: rest => (a = '\n' && b = '\n' && c = '\n') || hasTriple (b :: c :: rest)
  | _ => false

/-- Number of leading newline characters of the text. -/
def leadNl : List Char → Nat
  | [] => 0
  | c :: cs => if c = '\n' then leadNl cs + 1 else 0

/- ## Directory walker: `process_directory` of `fix_multiple_blanks.py` -/

/-- A file of the walked directory tree: the names of the directories
leading from the walk root to the file (`os.walk` descends one component per
level), the file's own name, and its content. -/
structure FsFile where
  relDir : List (List Char)
  name : List Char
  content : List Char

/-- Rendering of `os.path.join(root, child)` for the relative path shapes
produced by `os.walk`: the child component is appended after a `/`
separator, unless the accumulated root already ends in one. -/
def osJoin (root child : List Char) : List Char :=
  if root.getLast? = some '/' then root ++ child else root ++ '/' :: child

/-- The path under which `process_directory` reaches a file: `os.walk`
extends the walk root by the directory components, and line 21 of
`fix_multiple_blanks.py` joins the file name onto that root. -/
def walkPath (root : List Char) (f : FsFile) : List Char :=
  osJoin (f.relDir.foldl osJoin root) f.name

/-- File filter of `process_directory` line 20: `file.endswith('.md')`. -/
def isMdName (name : List Char) : Bool := ".md".toList.isSuffixOf name

/-- Embedding of `process_directory` from `fix_multiple_blanks.py` lines
17-23: every `.md` file of the walked tree has its content rewritten through
`fix_multiple_blanks` at its joined path; other files are untouched. -/
def process_directory (root : List Char) (files : List FsFile) : List FsFile :=
  files.map fun f =>
    if isMdName f.name then
      { f with content := fix_multiple_blanks (walkPath root f) f.content }
    else f

/- ## Table spacer: `fix_tables.py`

Line 11 runs `re.findall(r'(?<=\n)\|.*?\|(?:\n\|.*?\|)*?(?=\n)', content,
re.DOTALL)`.  Because the group `(?:\n\|.*?\|)*?` is lazy and is followed
only by the lookahead `(?=\n)`, a successful match never takes a group
iteration: whenever the lookahead fails the group body (which must start
with `\n`) fails at the same position.  With `re.DOTALL`, `.*?` crosses
newlines, so a match is exactly: a `|` immediately preceded by a newline,
everything up to the nearest later `|` immediately followed by a newline.
The scanner below implements precisely that, resuming after each match like
`re.findall` does. -/

/-- Whether the text ahead contains a match end, i.e. a `|` immediately
followed by a newline. -/
def hasTableEnd : List Char → Bool
  | [] => false
  | c :: cs => (c = '|' && cs.head? = some '\n') || hasTableEnd cs

/-- The characters of the current match after its opening `|`: everything up
to and including the nearest `|` that is immediately followed by a
newline. -/
def tableTake : List Char → List Char
  | [] => []
  | c :: cs => if c = '|' ∧ cs.head? = some '\n' then [c] else c :: tableTake cs

/-- The text remaining after the current match (it starts with the newline
seen by the lookahead `(?=\n)`). -/
def tableRest : List Char → List Char
  | [] => []
  | c :: cs => if c = '|' ∧ cs.head? = some '\n' then cs else tableRest cs

/-- Scanner of `re.findall` on the table pattern (`fix_tables.py` line 11):
positions are tried left to right; `prevNl` records whether the character
before the current position is a newline (the lookbehind `(?<=\n)`, false at
the very start); after a match the scan resumes at the match end. -/
def scanTables : Bool → List Char → List (List Char)
  | _, [] => []
  | prevNl, c :: cs =>
    if prevNl ∧ c = '|' ∧ hasTableEnd cs then
      ('|' :: tableTake cs) :: scanTables false (tableRest cs)
    else
      scanTables (c = '\n') cs
termination_by _ s => s.length
decreasing_by
  · have key : ∀ l : List Char, hasTableEnd l = true → (tableRest l).length < l.length := by
      intro l
      induction l with
      | nil => intro hh; simp [hasTableEnd] at hh
      | cons a as ih =>
        intro hh
        by_cases hc : a = '|' ∧ as.head? = some '\n'
        · simp [tableRest, hc]
        · have has : hasTableEnd as = true := by
            simp [hasTableEnd] at hh
            rcases hh with ⟨h1, h2⟩ | h3
            · exact absurd ⟨h1, h2⟩ hc
            · exact h3
          simp only [tableRest, if_neg hc]
          have := ih has
          simp
          omega
    rename_i hcond
    have := key cs hcond.2.2
    simp
    omega
  · simp

/-- Fuel-indexed structural twin of `scanTables`. -/
def scanTablesF : Nat → Bool → List Char → List (List Char)
  | 0, _, _ => []
  | fuel + 1, prevNl, s =>
    match s with
    | [] => []
    | c :: cs =>
      if prevNl ∧ c = '|' ∧ hasTableEnd cs then
        ('|' :: tableTake cs) :: scanTablesF fuel false (tableRest cs)
      else
        scanTablesF fuel (c = '\n') cs

/-- Embedding of the table scan of `fix_tables.py` line 11. -/
def findTables (content : List Char) : List (List Char) := scanTables false content

/-- Embedding of Python `content.replace(old, new)` as used on line 16 of
`fix_tables.py`: all non-overlapping occurrences of `pat` are replaced by
`rep`, scanning left to right.  (The patterns handed over by
`fix_table_formatting` are regex matches beginning with `|`, hence never
empty; an empty pattern leaves the content unchanged here.) -/
def replaceAll (pat rep : List Char) : List Char → List Char
  | [] => []
  | c :: cs =>
    if h : pat ≠ [] ∧ pat.isPrefixOf (c :: cs) then
      rep ++ replaceAll pat rep ((c :: cs).drop pat.length)
    else
      c :: replaceAll pat rep cs
termination_by s => s.length
decreasing_by
  · have hlen : 0 < pat.length := List.length_pos.mpr h.1
    simp
    omega
  · simp

/-- Fuel-indexed structural twin of `replaceAll`. -/
def replaceAllF (pat rep : List Char) : Nat → List Char → List Char
  | 0, s => s
  | fuel + 1, s =>
    match s with
    | [] => []
    | c :: cs =>
      if pat ≠ [] ∧ pat.isPrefixOf (c :: cs) then
        rep ++ replaceAllF pat rep fuel ((c :: cs).drop pat.length)
      else
        c :: replaceAllF pat rep fuel cs

/-- Number of the non-overlapping occurrences of `pat` that
`content.replace` rewrites, counted left to right. -/
def countOccur (pat : List Char) : List Char → Nat
  | [] => 0
  | c :: cs =>
    if h : pat ≠ [] ∧ pat.isPrefixOf (c :: cs) then
      countOccur pat ((c :: cs).drop pat.length) + 1
    else
      countOccur pat cs
termination_by s => s.length
decreasing_by
  · have hlen : 0 < pat.length := List.length_pos.mpr h.1
    simp
    omega
  · simp

/-- Fuel-indexed structural twin of `countOccur`. -/
def countOccurF (pat : List Char) : Nat → List Char → Nat
  | 0, _ => 0
  | fuel + 1, s =>
    match s with
    | [] => 0
    | c :: cs =>
      if pat ≠ [] ∧ pat.isPrefixOf (c :: cs) then
        countOccurF pat fuel ((c :: cs).drop pat.length) + 1
      else
        countOccurF pat fuel cs

/-- Padding built on line 15 of `fix_tables.py`: `'\n' + table + '\n'`. -/
def padTable (table : List Char) : List Char := '\n' :: table ++ ['\n']

/-- Content transform of `fix_table_formatting` (`fix_tables.py` lines
6-19): every match the single scan finds in the original content has all its
textual occurrences in the evolving content replaced by the padded version,
one match after the other, and the result is written back. -/
def fix_table_formatting (content : List Char) : List Char :=
  (findTables content).foldl (fun cur table => replaceAll table (padTable table) cur) content

/-- The lines of a text: the segments obtained by splitting at every newline
character (the newlines themselves are not part of any segment). -/
def linesOf : List Char → List (List Char)
  | [] => [[]]
  | c :: cs =>
    if c = '\n' then [] :: linesOf cs
    else
      match linesOf cs with
      | [] => [[c]]
      | l :: ls => (c :: l) :: ls

/-- Condition used by claim C10, written from the claim's words (this is a
spec-side formalisation, deliberately not derived from the code): whether
some line of the content both begins and ends with a pipe character. -/
def hasPipeBoundedLine (content : List Char) : Bool :=
  (linesOf content).any fun l => l.head? == some '|' && l.getLast? == some '|'

/- ## Equivalence of the scanners with their structural twins -/

theorem subBlanks_eq_runTwo : ∀ ds : List Char,
    subBlanksRun 2 ds = subBlanksRun 0 (ds.dropWhile fun x => x = '\n') := by
  intro ds
  induction ds with
  | nil => rfl
  | cons c cs ih =>
    by_cases hc : c = '\n'
    · simp only [subBlanksRun, if_pos hc, List.dropWhile_cons, hc]
      simpa using ih
    · simp [subBlanksRun, List.dropWhile_cons, hc]

theorem subBlanks_eq_runOne (cs : List Char) (h : cs.head? ≠ some '\n') :
    subBlanksRun 1 cs = subBlanksRun 0 cs := by
  cases cs with
  | nil => rfl
  | cons c cs =>
    have hc : c ≠ '\n' := by simpa using h
    simp [subBlanksRun, hc]

theorem subBlanksRun_zero_two (ds : List Char) :
    subBlanksRun 0 ('\n' :: '\n' :: ds) = '\n' :: '\n' :: subBlanksRun 2 ds := by
  simp [subBlanksRun]

theorem subBlanksRun_zero_one (cs : List Char) :
    subBlanksRun 0 ('\n' :: cs) = '\n' :: subBlanksRun 1 cs := by
  simp [subBlanksRun]

theorem subBlanks_eq_run (s : List Char) : subBlanks s = subBlanksRun 0 s := by
  induction s using subBlanks.induct with
  | case1 => simp [subBlanks, subBlanksRun]
  | case2 c cs hcond ih =>
    obtain ⟨rfl, hhead⟩ := hcond
    obtain ⟨ds, rfl⟩ : ∃ ds, cs = '\n' :: ds := by
      cases cs with
      | nil => simp at hhead
      | cons d ds =>
        simp only [List.head?_cons, Option.some.injEq] at hhead
        exact ⟨ds, by rw [hhead]⟩
    have hdw : ('\n' :: ds).dropWhile (fun x => x = '\n') =
        ds.dropWhile (fun x => x = '\n') := by
      simp [List.dropWhile_cons]
    rw [subBlanks, if_pos ⟨rfl, by simp⟩, subBlanksRun_zero_two, ih, hdw,
      ← subBlanks_eq_runTwo]
  | case3 c cs hcond ih =>
    rw [subBlanks, if_neg hcond]
    by_cases hc : c = '\n'
    · subst hc
      have hh : cs.head? ≠ some '\n' := fun h => hcond ⟨rfl, h⟩
      rw [subBlanksRun_zero_one, ih, subBlanks_eq_runOne cs hh]
    · simp only [subBlanksRun, if_neg hc]
      rw [ih]

theorem tableRest_length_lt : ∀ l : List Char, hasTableEnd l = true →
    (tableRest l).length < l.length := by
  intro l
  induction l with
  | nil => intro hh; simp [hasTableEnd] at hh
  | cons a as ih =>
    intro hh
    by_cases hc : a = '|' ∧ as.head? = some '\n'
    · simp [tableRest, hc]
    · have has : hasTableEnd as = true := by
        simp [hasTableEnd] at hh
        rcases hh with ⟨h1, h2⟩ | h3
        · exact absurd ⟨h1, h2⟩ hc
        · exact h3
      simp only [tableRest, if_neg hc]
      have := ih has
      simp
      omega

theorem scanTablesF_eq (prevNl : Bool) (s : List Char) :
    ∀ fuel, s.length ≤ fuel → scanTablesF fuel prevNl s = scanTables prevNl s := by
  induction prevNl, s using scanTables.induct with
  | case1 prevNl =>
    intro fuel _
    cases fuel <;> simp [scanTablesF, scanTables]
  | case2 prevNl c cs hcond ih =>
    intro fuel hf
    simp only [List.length_cons] at hf
    obtain ⟨m, rfl⟩ : ∃ m, fuel = m + 1 := ⟨fuel - 1, by omega⟩
    rw [scanTables]
    simp only [scanTablesF, if_pos hcond]
    congr 1
    exact ih m (by have := tableRest_length_lt cs hcond.2.2; omega)
  | case3 prevNl c cs hcond ih =>
    intro fuel hf
    simp only [List.length_cons] at hf
    obtain ⟨m, rfl⟩ : ∃ m, fuel = m + 1 := ⟨fuel - 1, by omega⟩
    rw [scanTables]
    simp only [scanTablesF, if_neg hcond]
    exact ih m (by omega)

theorem replaceAllF_eq (pat rep : List Char) : ∀ (s : List Char) (fuel : Nat),
    s.length ≤ fuel → replaceAllF pat rep fuel s = replaceAll pat rep s := by
  intro s
  induction s using replaceAll.induct pat rep with
  | case1 =>
    intro fuel _
    cases fuel <;> simp [replaceAllF, replaceAll]
  | case2 c cs h ih =>
    intro fuel hf
    simp only [List.length_cons] at hf
    obtain ⟨m, rfl⟩ : ∃ m, fuel = m + 1 := ⟨fuel - 1, by omega⟩
    rw [replaceAll, dif_pos h]
    simp only [replaceAllF, if_pos h]
    congr 1
    apply ih
    have hp : 0 < pat.length := List.length_pos.mpr h.1
    simp only [List.length_drop, List.length_cons]
    omega
  | case3 c cs h ih =>
    intro fuel hf
    simp only [List.length_cons] at hf
    obtain ⟨m, rfl⟩ : ∃ m, fuel = m + 1 := ⟨fuel - 1, by omega⟩
    rw [replaceAll, dif_neg h]
    simp only [replaceAllF, if_neg h]
    rw [ih m (by omega)]

theorem countOccurF_eq (pat : List Char) : ∀ (s : List Char) (fuel : Nat),
    s.length ≤ fuel → countOccurF pat fuel s = countOccur pat s := by
  intro s
  induction s using countOccur.induct pat with
  | case1 =>
    intro fuel _
    cases fuel <;> simp [countOccurF, countOccur]
  | case2 c cs h ih =>
    intro fuel hf
    simp only [List.length_cons] at hf
    obtain ⟨m, rfl⟩ : ∃ m, fuel = m + 1 := ⟨fuel - 1, by omega⟩
    rw [countOccur, dif_pos h]
    simp only [countOccurF, if_pos h]
    congr 1
    apply ih
    have hp : 0 < pat.length := List.length_pos.mpr h.1
    simp only [List.length_drop, List.length_cons]
    omega
  | case3 c cs h ih =>
    intro fuel hf
    simp only [List.length_cons] at hf
    obtain ⟨m, rfl⟩ : ∃ m, fuel = m + 1 := ⟨fuel - 1, by omega⟩
    rw [countOccur, dif_neg h]
    simp only [countOccurF, if_neg h]
    exact ih m (by omega)

theorem fix_table_formatting_eval (content : List Char) :
    fix_table_formatting content =
      (scanTablesF content.length false content).foldl
        (fun cur table => replaceAllF table (padTable table) cur.length cur) content := by
  rw [fix_table_formatting, findTables,
    ← scanTablesF_eq false content content.length le_rfl]
  congr 1
  funext cur table
  exact (replaceAllF_eq table (padTable table) cur cur.length le_rfl).symm

theorem fix_multiple_blanks_eval (path content : List Char) :
    fix_multiple_blanks path content =
      if path ≠ changelogName then subBlanksRun 0 content else content := by
  rw [fix_multiple_blanks, subBlanks_eq_run]

/- ## Invariants of the blank-line substitution -/

theorem hasTriple_iff (s : List Char) :
    hasTriple s = true ↔ ['\n', '\n', '\n'] <:+: s := by
  induction s with
  | nil =>
    simp only [hasTriple, Bool.false_eq_true, false_iff]
    intro h
    have := h.sublist.length_le
    simp at this
  | cons a s ih =>
    match s with
    | [] =>
      simp only [hasTriple, Bool.false_eq_true, false_iff]
      intro h
      have := h.sublist.length_le
      simp at this
    | [b] =>
      simp only [hasTriple, Bool.false_eq_true, false_iff]
      intro h
      have := h.sublist.length_le
      simp at this
    | b :: c :: r =>
      rw [List.infix_cons_iff, ← ih]
      simp only [hasTriple, Bool.or_eq_true, Bool.and_eq_true, decide_eq_true_eq]
      constructor
      · rintro (⟨⟨ha, hb⟩, hc⟩ | h)
        · exact Or.inl (by simp [ha, hb, hc, List.cons_prefix_cons, List.nil_prefix])
        · exact Or.inr h
      · rintro (h | h)
        · refine Or.inl ?_
          rw [List.cons_prefix_cons] at h
          obtain ⟨ha, h⟩ := h
          rw [List.cons_prefix_cons] at h
          obtain ⟨hb, h⟩ := h
          rw [List.cons_prefix_cons] at h
          exact ⟨⟨ha.symm, hb.symm⟩, h.1.symm⟩
        · exact Or.inr h

theorem hasTriple_cons (c : Char) (t : List Char) :
    hasTriple (c :: t) = ((c = '\n' && 2 ≤ leadNl t) || hasTriple t) := by
  match t with
  | [] => simp [hasTriple, leadNl]
  | [b] =>
    by_cases hb : b = '\n' <;> simp [hasTriple, leadNl, hb]
  | b :: d :: r =>
    by_cases hb : b = '\n' <;> by_cases hd : d = '\n' <;>
      simp [hasTriple, leadNl, hb, hd] <;> try omega

theorem leadNl_le_two (s : List Char) (h : hasTriple s = false) : leadNl s ≤ 2 := by
  match s with
  | [] => simp [leadNl]
  | [a] =>
    by_cases ha : a = '\n' <;> simp [leadNl, ha]
  | [a, b] =>
    by_cases ha : a = '\n' <;> by_cases hb : b = '\n' <;> simp [leadNl, ha, hb]
  | a :: b :: c :: r =>
    by_cases ha : a = '\n' <;> by_cases hb : b = '\n' <;> by_cases hc : c = '\n' <;>
      simp [leadNl, hasTriple, ha, hb, hc] at h ⊢ <;> try omega

theorem subBlanksRun_no_triple (s : List Char) : ∀ k : Nat,
    hasTriple (subBlanksRun k s) = false ∧
    leadNl (subBlanksRun k s) + min k 2 ≤ 2 := by
  induction s with
  | nil =>
    intro k
    rw [subBlanksRun]
    refine ⟨rfl, ?_⟩
    simp [leadNl]
  | cons c cs ih =>
    intro k
    by_cases hc : c = '\n'
    · by_cases hk : 2 ≤ k
      · rw [subBlanksRun, if_pos hc, if_pos hk]
        exact ih k
      · rw [subBlanksRun, if_pos hc, if_neg hk]
        obtain ⟨h1, h2⟩ := ih (k + 1)
        have hmin : min (k + 1) 2 = k + 1 := by omega
        rw [hmin] at h2
        constructor
        · rw [hasTriple_cons]
          have hle : ¬ (2 ≤ leadNl (subBlanksRun (k + 1) cs)) := by omega
          simp [h1, hle]
        · have hl : leadNl ('\n' :: subBlanksRun (k + 1) cs) =
              leadNl (subBlanksRun (k + 1) cs) + 1 := by simp [leadNl]
          rw [hl]
          omega
    · rw [subBlanksRun, if_neg hc]
      obtain ⟨h1, h2⟩ := ih 0
      constructor
      · rw [hasTriple_cons]
        simp [h1, hc]
      · have hl : leadNl (c :: subBlanksRun 0 cs) = 0 := by simp [leadNl, hc]
        rw [hl]
        omega

theorem subBlanksRun_fixed (s : List Char) : ∀ k : Nat, hasTriple s = false →
    leadNl s + k ≤ 2 → subBlanksRun k s = s := by
  induction s with
  | nil => intro k _ _; rw [subBlanksRun]
  | cons c cs ih =>
    intro k hT hL
    by_cases hc : c = '\n'
    · have hlead : leadNl (c :: cs) = leadNl cs + 1 := by simp [leadNl, hc]
      have hk : ¬ 2 ≤ k := by omega
      rw [subBlanksRun, if_pos hc, if_neg hk, hc]
      congr 1
      rw [hasTriple_cons] at hT
      simp only [Bool.or_eq_false_iff] at hT
      exact ih (k + 1) hT.2 (by omega)
    · have hlead : leadNl (c :: cs) = 0 := by simp [leadNl, hc]
      rw [subBlanksRun, if_neg hc]
      congr 1
      rw [hasTriple_cons] at hT
      simp only [Bool.or_eq_false_iff] at hT
      exact ih 0 hT.2 (by have := leadNl_le_two cs hT.2; omega)

/- ## Walker path facts -/

theorem osJoin_ne_nil (root child : List Char) (h : root ≠ []) : osJoin root child ≠ [] := by
  rcases root with _ | ⟨a, t⟩
  · exact absurd rfl h
  · by_cases hl : (a :: t).getLast? = some '/' <;> simp [osJoin, hl]

theorem osJoin_headq (root child : List Char) (h : root ≠ []) :
    (osJoin root child).head? = root.head? := by
  rcases root with _ | ⟨a, t⟩
  · exact absurd rfl h
  · by_cases hl : (a :: t).getLast? = some '/' <;> simp [osJoin, hl]

theorem foldl_osJoin_facts (dirs : List (List Char)) : ∀ root : List Char, root ≠ [] →
    (dirs.foldl osJoin root).head? = root.head? ∧ dirs.foldl osJoin root ≠ [] := by
  induction dirs with
  | nil => intro root h; exact ⟨rfl, h⟩
  | cons d ds ih =>
    intro root h
    have h1 : osJoin root d ≠ [] := osJoin_ne_nil root d h
    have h2 := ih (osJoin root d) h1
    simp only [List.foldl_cons]
    exact ⟨h2.1.trans (osJoin_headq root d h), h2.2⟩

theorem walkPath_headq (f : FsFile) : (walkPath ['.'] f).head? = some '.' := by
  have h := foldl_osJoin_facts f.relDir ['.'] (by simp)
  rw [walkPath, osJoin_headq _ _ h.2, h.1]
  rfl

theorem walkPath_ne_changelog (f : FsFile) : walkPath ['.'] f ≠ changelogName := by
  intro he
  have h := walkPath_headq f
  rw [he] at h
  exact absurd h (by decide)

/- ## Facts about the table scan and the padded replacement -/

theorem scanTables_no_pipe (prevNl : Bool) (s : List Char) :
    '|' ∉ s → scanTables prevNl s = [] := by
  induction prevNl, s using scanTables.induct with
  | case1 _ => intro _; simp [scanTables]
  | case2 prevNl c cs hcond ih =>
    intro h
    exact absurd (hcond.2.1 ▸ List.mem_cons_self c cs) h
  | case3 prevNl c cs hcond ih =>
    intro h
    rw [scanTables, if_neg hcond]
    exact ih fun hm => h (List.mem_cons_of_mem c hm)

theorem replaceAll_pad_length (pat : List Char) : ∀ s : List Char,
    (replaceAll pat (padTable pat) s).length = s.length + 2 * countOccur pat s := by
  intro s
  induction s using replaceAll.induct pat (padTable pat) with
  | case1 => simp [replaceAll, countOccur]
  | case2 c cs h ih =>
    rw [replaceAll, dif_pos h, countOccur, dif_pos h]
    have hp : pat.length ≤ (c :: cs).length :=
      (List.isPrefixOf_iff_prefix.mp h.2).length_le
    simp only [List.length_append, List.length_drop, List.length_cons, padTable] at ih ⊢
    simp only [List.length_append, List.length_cons, List.length_nil] at ih ⊢
    simp only [List.length_cons] at hp
    omega
  | case3 c cs h ih =>
    rw [replaceAll, dif_neg h, countOccur, dif_neg h]
    simp only [List.length_cons, ih]
    omega

/- ## Claim theorems -/

/-- Claim C1.  The spec's concrete scenario B expects the table spacer to
treat the two-line pipe block of `"text\n|a|b|\n|c|d|\nmore text\n"` as one
block and to produce `"text\n\n|a|b|\n|c|d|\n\nmore text\n"`.  The code does
not: its lazy regex matches each pipe line separately, so padding is also
inserted between the two rows and the actual output is
`"text\n\n|a|b|\n\n\n|c|d|\n\nmore text\n"`, which differs from the
spec's expected output. -/
theorem c1_table_spacer_splits_two_row_block :
    fix_table_formatting "text\n|a|b|\n|c|d|\nmore text\n".toList
        = "text\n\n|a|b|\n\n\n|c|d|\n\nmore text\n".toList ∧
    "text\n\n|a|b|\n\n\n|c|d|\n\nmore text\n".toList
        ≠ "text\n\n|a|b|\n|c|d|\n\nmore text\n".toList := by
  constructor
  · rw [fix_table_formatting_eval]
    decide
  · decide

/-- Claim C2.  The claim says every pipe-delimited block not already flanked
by blank lines ends up flanked by exactly one blank line on each side.  On
the input `"text\n|a|b|\n|c|d|\nmore text\n"` the two-line block
`"|a|b|\n|c|d|"` is present in the input but does not occur at all in the
output (the code inserts blank lines between its rows), so in particular it
is not flanked by blank lines there. -/
theorem c2_table_block_not_flanked :
    ("|a|b|\n|c|d|".toList <:+: "text\n|a|b|\n|c|d|\nmore text\n".toList) ∧
    ¬ ("|a|b|\n|c|d|".toList
        <:+: fix_table_formatting "text\n|a|b|\n|c|d|\nmore text\n".toList) := by
  constructor
  · decide
  · rw [fix_table_formatting_eval]
    decide

/-- Claim C3, counterexample.  The table spacer transform is not idempotent:
on `"a\n|x|\nb\n"` a second application changes the output again. -/
theorem c3_table_spacer_not_idempotent_cex :
    fix_table_formatting (fix_table_formatting "a\n|x|\nb\n".toList)
      ≠ fix_table_formatting "a\n|x|\nb\n".toList := by
  have h1 : fix_table_formatting "a\n|x|\nb\n".toList = "a\n\n|x|\n\nb\n".toList := by
    rw [fix_table_formatting_eval]
    decide
  have h2 : fix_table_formatting "a\n\n|x|\n\nb\n".toList
      = "a\n\n\n|x|\n\n\nb\n".toList := by
    rw [fix_table_formatting_eval]
    decide
  rw [h1, h2]
  decide

/-- Claim C3, amended.  The table spacer is not idempotent: padding is
inserted unconditionally, so each run adds one more blank line on each side
of a matched table; applying it to `"a\n|x|\nb\n"` yields
`"a\n\n|x|\n\nb\n"`, and applying it to that output yields
`"a\n\n\n|x|\n\n\nb\n"`, a further change. -/
theorem c3_table_spacer_second_run_adds_blank_lines :
    fix_table_formatting "a\n|x|\nb\n".toList = "a\n\n|x|\n\nb\n".toList ∧
    fix_table_formatting "a\n\n|x|\n\nb\n".toList = "a\n\n\n|x|\n\n\nb\n".toList := by
  refine ⟨?_, ?_⟩ <;> rw [fix_table_formatting_eval] <;> decide

/-- Claim C4.  Each matched table block has all textual occurrences replaced
by the padded version: in general, one replacement pass on `pat` grows the
content by exactly two newlines per counted occurrence of `pat`; and on the
duplicate-table input `"x\n|a|\ny\n|a|\nz\n"`, whose scan finds the block
`"|a|"` twice, both copies end up padded (the padded shape `"\n\n|a|\n\n"`
occurs twice in the output and zero times in the input). -/
theorem c4_replace_hits_all_occurrences :
    (∀ pat s : List Char,
        (replaceAll pat (padTable pat) s).length = s.length + 2 * countOccur pat s) ∧
    findTables "x\n|a|\ny\n|a|\nz\n".toList = ["|a|".toList, "|a|".toList] ∧
    fix_table_formatting "x\n|a|\ny\n|a|\nz\n".toList
      = "x\n\n\n|a|\n\n\ny\n\n\n|a|\n\n\nz\n".toList ∧
    countOccur "\n\n|a|\n\n".toList (fix_table_formatting "x\n|a|\ny\n|a|\nz\n".toList) = 2 ∧
    countOccur "\n\n|a|\n\n".toList "x\n|a|\ny\n|a|\nz\n".toList = 0 := by
  have hout : fix_table_formatting "x\n|a|\ny\n|a|\nz\n".toList
      = "x\n\n\n|a|\n\n\ny\n\n\n|a|\n\n\nz\n".toList := by
    rw [fix_table_formatting_eval]
    decide
  refine ⟨fun pat s => replaceAll_pad_length pat s, ?_, hout, ?_, ?_⟩
  · rw [findTables, ← scanTablesF_eq false "x\n|a|\ny\n|a|\nz\n".toList
      "x\n|a|\ny\n|a|\nz\n".toList.length le_rfl]
    decide
  · rw [hout, ← countOccurF_eq "\n\n|a|\n\n".toList
      "x\n\n\n|a|\n\n\ny\n\n\n|a|\n\n\nz\n".toList
      "x\n\n\n|a|\n\n\ny\n\n\n|a|\n\n\nz\n".toList.length le_rfl]
    decide
  · rw [← countOccurF_eq "\n\n|a|\n\n".toList "x\n|a|\ny\n|a|\nz\n".toList
      "x\n|a|\ny\n|a|\nz\n".toList.length le_rfl]
    decide

/-- Claim C5.  The blank-line normalizer is idempotent on every non-exempted
file: applying the transform of `fix_multiple_blanks` twice yields the same
content as applying it once. -/
theorem c5_normalizer_idempotent (path content : List Char) (h : path ≠ changelogName) :
    fix_multiple_blanks path (fix_multiple_blanks path content)
      = fix_multiple_blanks path content := by
  rw [fix_multiple_blanks_eval, fix_multiple_blanks_eval, if_pos h, if_pos h]
  exact subBlanksRun_fixed _ 0 (subBlanksRun_no_triple content 0).1
    (by have := (subBlanksRun_no_triple content 0).2; omega)

/-- Witness for claim C5 at a concrete non-exempted path and content. -/
theorem c5_normalizer_idempotent_witness :
    "README.md".toList ≠ changelogName ∧
    fix_multiple_blanks "README.md".toList
        (fix_multiple_blanks "README.md".toList "x\n\n\n\ny\n".toList)
      = fix_multiple_blanks "README.md".toList "x\n\n\n\ny\n".toList :=
  ⟨by decide, c5_normalizer_idempotent "README.md".toList "x\n\n\n\ny\n".toList (by decide)⟩

/-- Claim C6.  For every non-exempted input, the normalizer's output
contains no substring of three (or more) consecutive newline characters. -/
theorem c6_normalizer_no_triple_newline (path content : List Char)
    (h : path ≠ changelogName) :
    ¬ (['\n', '\n', '\n'] <:+: fix_multiple_blanks path content) := by
  intro hinf
  rw [fix_multiple_blanks_eval, if_pos h] at hinf
  have h1 := (subBlanksRun_no_triple content 0).1
  have h2 := (hasTriple_iff (subBlanksRun 0 content)).mpr hinf
  rw [h1] at h2
  exact Bool.false_ne_true h2

/-- Witness for claim C6 at a concrete non-exempted path and content. -/
theorem c6_normalizer_no_triple_newline_witness :
    "notes.md".toList ≠ changelogName ∧
    ¬ (['\n', '\n', '\n'] <:+: fix_multiple_blanks "notes.md".toList "a\n\n\n\n\nb".toList) :=
  ⟨by decide, c6_normalizer_no_triple_newline "notes.md".toList "a\n\n\n\n\nb".toList (by decide)⟩

/-- Claim C7.  When handed exactly the path `CHANGELOG.md`, the normalizer
leaves any content byte-for-byte unchanged; in particular the content
`"a\n\n\n\nb\n"` stays `"a\n\n\n\nb\n"`. -/
theorem c7_changelog_exempt_unchanged :
    (∀ content : List Char, fix_multiple_blanks changelogName content = content) ∧
    fix_multiple_blanks changelogName "a\n\n\n\nb\n".toList = "a\n\n\n\nb\n".toList := by
  have h : ∀ content : List Char, fix_multiple_blanks changelogName content = content := by
    intro content
    unfold fix_multiple_blanks
    rw [if_neg (by simp)]
  exact ⟨h, h _⟩

/-- Claim C8.  Concrete scenario A: on a non-exempted file the content
`"line1\n\n\n\nline2\n"` normalizes to `"line1\n\nline2\n"`. -/
theorem c8_concrete_collapse :
    fix_multiple_blanks "README.md".toList "line1\n\n\n\nline2\n".toList
      = "line1\n\nline2\n".toList := by
  rw [fix_multiple_blanks_eval, if_pos (by decide)]
  decide

/-- Claim C9.  Every file path built by `process_directory('.')` goes
through `os.path.join` and so carries the `./` root: it never equals the
bare literal `CHANGELOG.md`, the exemption never fires, and every walked
`.md` file, a root-level `CHANGELOG.md` included, has its blank-line runs
collapsed. -/
theorem c9_walker_defeats_exemption (files : List FsFile) :
    (∀ f ∈ files, walkPath ['.'] f ≠ changelogName ∧
        fix_multiple_blanks (walkPath ['.'] f) f.content = subBlanks f.content) ∧
    process_directory ['.'] files = files.map fun g =>
      if isMdName g.name then { g with content := subBlanks g.content } else g := by
  constructor
  · intro f _
    refine ⟨walkPath_ne_changelog f, ?_⟩
    unfold fix_multiple_blanks
    rw [if_pos (walkPath_ne_changelog f)]
  · unfold process_directory
    apply List.map_congr_left
    intro g _
    by_cases hg : isMdName g.name = true
    · rw [if_pos hg, if_pos hg]
      have hfix : fix_multiple_blanks (walkPath ['.'] g) g.content = subBlanks g.content := by
        unfold fix_multiple_blanks
        rw [if_pos (walkPath_ne_changelog g)]
      rw [hfix]
    · rw [if_neg hg, if_neg hg]

/-- Witness for claim C9: a tree whose single file is a root-level
`CHANGELOG.md` is still collapsed, its walked path being `./CHANGELOG.md`. -/
theorem c9_walker_defeats_exemption_witness :
    walkPath ['.'] ⟨[], "CHANGELOG.md".toList, "a\n\n\n\nb\n".toList⟩ ≠ changelogName ∧
    fix_multiple_blanks
        (walkPath ['.'] ⟨[], "CHANGELOG.md".toList, "a\n\n\n\nb\n".toList⟩)
        "a\n\n\n\nb\n".toList
      = subBlanks "a\n\n\n\nb\n".toList :=
  (c9_walker_defeats_exemption [⟨[], "CHANGELOG.md".toList, "a\n\n\n\nb\n".toList⟩]).1
    ⟨[], "CHANGELOG.md".toList, "a\n\n\n\nb\n".toList⟩ (List.mem_singleton.mpr rfl)

/-- Claim C10, counterexample.  The content `"x\n|a\nb|\ny"` has no line
that both begins and ends with a pipe character, yet the table spacer does
modify it: with `re.DOTALL` the lazy `.*?` crosses the newline, so
`"|a\nb|"` is matched and padded. -/
theorem c10_line_condition_cex :
    hasPipeBoundedLine "x\n|a\nb|\ny".toList = false ∧
    fix_table_formatting "x\n|a\nb|\ny".toList ≠ "x\n|a\nb|\ny".toList := by
  constructor
  · decide
  · rw [fix_table_formatting_eval]
    decide

/-- Claim C10, amended.  When the table scan finds no match the content is
written back unchanged; in particular a content containing no pipe character
at all yields no match.  (The claim's original condition — no single line
bounded by pipes — does not guarantee an empty scan, because a match may
span a newline.) -/
theorem c10_scan_no_match_unchanged (content : List Char) :
    ('|' ∉ content → findTables content = []) ∧
    (findTables content = [] → fix_table_formatting content = content) := by
  constructor
  · intro h
    unfold findTables
    exact scanTables_no_pipe false content h
  · intro h
    unfold fix_table_formatting
    rw [h]
    rfl

/-- Witness for claim C10's amended statement at a pipe-free content. -/
theorem c10_scan_no_match_unchanged_witness :
    findTables "hello\nworld\n".toList = [] ∧
    fix_table_formatting "hello\nworld\n".toList = "hello\nworld\n".toList := by
  have h : findTables "hello\nworld\n".toList = [] :=
    (c10_scan_no_match_unchanged "hello\nworld\n".toList).1 (by decide)
  exact ⟨h, (c10_scan_no_match_unchanged "hello\nworld\n".toList).2 h⟩
